import Mathlib

/-!
Verification development for the EducompanionAnimation core
(`text_to_animation/intelligent_animator.py`).

The Python animator is shallowly embedded: the per-structure "execute
operation" sections of `UniversalAnimationEngine._animate_*` become pure
step functions on explicit state, the classifier
`ContentAnalyzer.analyze_content` becomes a scoring function over the
embedded pattern table, and `ContentAnalyzer._extract_data_structure_operations`
is embedded together with a small backtracking matcher giving the
semantics of the `re` patterns the source uses.

Python's built-in `hash` on strings is salted per process; it is embedded
as an explicit oracle parameter `h : String → Nat` threaded through the
hash-table simulator.
-/

namespace Edu

/-! ### Operations, one inductive per animator (mirroring the per-animator
operation dicts produced by `_extract_data_structure_operations`). -/

/-- Operations of `_animate_stack`: `stack_push` carries the extracted value,
`stack_pop` carries nothing. -/
inductive StackOp where
  | push (value : String)
  | pop
deriving DecidableEq

/-- Operations of `_animate_queue`. -/
inductive QueueOp where
  | enqueue (value : String)
  | dequeue
deriving DecidableEq

/-- Operations of `_animate_array`.  The index fields are `Option` because the
Python code reads them with `operation.get(...)` and a default. -/
inductive ArrayOp where
  | insert (value : String) (index : Option Nat)
  | append (value : String)
  | delete (index : Option Nat)
deriving DecidableEq

/-- Operations of `_animate_linked_list`. -/
inductive ListOp where
  | insert (value : String)
  | append (value : String)
  | delete
deriving DecidableEq

/-- Operation of `_animate_tree`; the animator compares `int(value)` so the
value is embedded as the integer the extracted digit string denotes. -/
inductive TreeOp where
  | insert (value : Int)
deriving DecidableEq

/-- Operations of `_animate_graph`.  `weight` mirrors
`operation.get('weight', 1)` and `node` of a traversal mirrors
`operation.get('node', ...)`. -/
inductive GraphOp where
  | addNode (node : String)
  | addEdge (fromNode toNode : String) (weight : Option Nat)
  | dfs (node : Option String)
  | bfs (node : Option String)
deriving DecidableEq

/-- Operations of `_animate_hash_table`. -/
inductive HashOp where
  | insert (key : String)
  | search (key : String)
  | delete (key : String)
deriving DecidableEq

/-! ### Stack simulator (`_animate_stack`, execute section lines 674-678)

```python
if operation['type'] == 'stack_push':
    stack.append(operation['value'])
elif operation['type'] == 'stack_pop' and stack:
    stack.pop()
```
-/

/-- One execute step of the stack animator; the Python list's last element is
the top of the stack. -/
def stackStep (s : List String) : StackOp → List String
  | .push v => s ++ [v]
  | .pop => if s = [] then s else s.dropLast

/-- Folding the stack execute step over an operation list, from the empty
initial stack of `_animate_stack`. -/
def stackRun (ops : List StackOp) : List String :=
  ops.foldl stackStep []

/-! ### Queue simulator (`_animate_queue`, execute section lines 760-764)

```python
if operation['type'] == 'queue_enqueue':
    queue.append(operation['value'])
elif operation['type'] == 'queue_dequeue' and queue:
    queue.pop(0)
```
-/

/-- One execute step of the queue animator; the list head is the queue front
(`queue.pop(0)` removes it). -/
def queueStep (q : List String) : QueueOp → List String
  | .enqueue v => q ++ [v]
  | .dequeue => if q = [] then q else q.tail

/-! ### Array simulator (`_animate_array`, execute section lines 851-862)

```python
if operation['type'] == 'array_insert':
    value = operation['value']
    index = int(operation.get('index', len(array)))
    if index <= len(array) and len(array) < max_size:
        array.insert(index, value)
elif operation['type'] == 'array_delete':
    index = int(operation.get('index', len(array) - 1))
    if 0 <= index < len(array):
        array.pop(index)
elif operation['type'] == 'array_append' and len(array) < max_size:
    array.append(operation['value'])
```
with `max_size = 10`.
-/

/-- `max_size` of `_animate_array`. -/
def maxSize : Nat := 10

/-- Python `list.insert(index, value)`: insert before `index`, at the end when
`index` is at least the length (the animator's guard only ever calls it with
`index <= len`). -/
def pyInsert : List String → Nat → String → List String
  | l, 0, v => v :: l
  | [], _ + 1, v => [v]
  | x :: l, n + 1, v => x :: pyInsert l n v

/-- One execute step of the array animator.  Note the insert guard is
`index <= len(array)`: an index beyond the length makes the whole operation a
no-op (the index is not clamped).  The delete default index is
`len(array) - 1`, which in Python is `-1` on an empty array, so it is computed
in `Int`. -/
def arrayStep (a : List String) : ArrayOp → List String
  | .insert v idx =>
      let index := idx.getD a.length
      if index ≤ a.length ∧ a.length < maxSize then pyInsert a index v else a
  | .delete idx =>
      let index : Int := match idx with
        | some i => (i : Int)
        | none => (a.length : Int) - 1
      if 0 ≤ index ∧ index < (a.length : Int) then a.eraseIdx index.toNat else a
  | .append v => if a.length < maxSize then a ++ [v] else a

/-- Folding the array execute step from the empty initial array. -/
def arrayRun (ops : List ArrayOp) : List String :=
  ops.foldl arrayStep []

/-! ### Linked-list simulator (`_animate_linked_list`, execute section
lines 1296-1333)

`list_insert` prepends a node at the head (both the empty and the non-empty
branch), `list_append` walks to the tail and appends, and `list_delete`
is guarded by `and head`: on an empty list the `else` branch redraws the
frame with the default `step_info=""`.  The `step_info` string set by each
branch is returned as the step's diagnostic.
-/

/-- One execute step of the linked-list animator on the head-first node list,
returning the new list and the `step_info` diagnostic string the branch
passes to `draw_linked_list_frame` (empty when the branch sets none). -/
def listExec (l : List String) : ListOp → List String × String
  | .insert v => (v :: l, "✓ Inserted " ++ v ++ " at head")
  | .delete =>
      match l with
      | [] => ([], "")
      | d :: rest => (rest, "✓ Deleted " ++ d ++ " from head")
  | .append v => (l ++ [v], "✓ Appended " ++ v ++ " to tail")

/-! ### Binary search tree simulator (`_animate_tree`)

```python
def insert_node(root, value):
    if root is None:
        return TreeNode(value)
    if int(value) < int(root.value):
        root.left = insert_node(root.left, value)
    else:
        root.right = insert_node(root.right, value)
    return root
```
and
```python
def inorder_traversal(node, result):
    if node:
        inorder_traversal(node.left, result)
        result.append(node.value)
        inorder_traversal(node.right, result)
```
-/

/-- The `TreeNode` shape of `_animate_tree` (layout fields `x`, `y`, `level`
are recomputed per frame and carry no simulation state). -/
inductive Tree where
  | nil
  | node (left : Tree) (value : Int) (right : Tree)
deriving DecidableEq

/-- `insert_node` of `_animate_tree`: strictly-less goes left, otherwise
(ties included) right, creating a leaf at the first `None` link. -/
def insert_node : Tree → Int → Tree
  | .nil, v => .node .nil v .nil
  | .node l x r, v =>
      if v < x then .node (insert_node l v) x r else .node l x (insert_node r v)

/-- `inorder_traversal` of `_animate_tree`. -/
def inorder : Tree → List Int
  | .nil => []
  | .node l v r => inorder l ++ v :: inorder r

/-- The tree animator only executes `tree_insert` operations; running a
sequence of insertions from the initially empty `root = None`. -/
def treeRun (vs : List Int) : Tree :=
  vs.foldl insert_node .nil

/-! ### Graph simulator (`_animate_graph`, execute section lines 1566-1614)

`nodes` is a dict keyed by vertex name (its values are layout positions,
recomputed on every draw, hence only the key list in insertion order is
simulation state); `adjacency` maps a vertex to its neighbour list;
`edge_weights` is keyed by the string `f"{from_node}-{to_node}"`;
`visited_order` accumulates the simplified traversal.
-/

/-- State of `_animate_graph`.  Dicts are embedded as insertion-ordered
association lists. -/
structure GraphState where
  nodes : List String
  adjacency : List (String × List String)
  edgeWeights : List (String × Nat)
  visitedOrder : List String
deriving DecidableEq

/-- The empty graph the animator starts from. -/
def initGraph : GraphState := ⟨[], [], [], []⟩

/-- Python dict assignment `d[k] = v` on an insertion-ordered association
list: overwrite in place if the key exists, else append. -/
def dictSet (d : List (String × α)) (k : String) (v : α) : List (String × α) :=
  match d with
  | [] => [(k, v)]
  | (k₀, v₀) :: rest =>
      if k₀ = k then (k, v) :: rest else (k₀, v₀) :: dictSet rest k v

/-- Python dict lookup (with the keys our code always checks first). -/
def dictGet (d : List (String × α)) (k : String) (dflt : α) : α :=
  match d with
  | [] => dflt
  | (k₀, v₀) :: rest => if k₀ = k then v₀ else dictGet rest k dflt

/-- Membership of a key in a dict (`k in d`). -/
def dictHas (d : List (String × α)) (k : String) : Bool :=
  match d with
  | [] => false
  | (k₀, _) :: rest => k₀ = k || dictHas rest k

/-- `nodes[node] = (0.5, 0.5)` keeps the key list unchanged when the key is
present (only the position value, which is not simulation state, changes). -/
def nodesAdd (ns : List String) (n : String) : List String :=
  if n ∈ ns then ns else ns ++ [n]

/-- The endpoint-creation loop of the `graph_add_edge` branch:
`if node not in nodes: ...` and `if node not in adjacency: adjacency[node] = []`. -/
def ensureNode (g : GraphState) (n : String) : GraphState :=
  { g with
    nodes := nodesAdd g.nodes n
    adjacency := if dictHas g.adjacency n then g.adjacency else dictSet g.adjacency n [] }

/-- The traversal inner loop: visit up to the first two neighbours not yet in
`visited_order`, in adjacency-list order. -/
def visitNeighbors (visited : List String) : List String → List String
  | [] => visited
  | n :: rest =>
      if n ∈ visited then visitNeighbors visited rest
      else visitNeighbors (visited ++ [n]) rest

/-- The edge append of the `graph_add_edge` branch:
`if to_node not in adjacency[from_node]: adjacency[from_node].append(to_node)`. -/
def updAdj (g : GraphState) (fn tn : String) : GraphState :=
  if tn ∈ dictGet g.adjacency fn [] then g
  else { g with adjacency := dictSet g.adjacency fn (dictGet g.adjacency fn [] ++ [tn]) }

/-- The weight write of the `graph_add_edge` branch:
`edge_weights[f"{from_node}-{to_node}"] = weight`. -/
def updWeight (g : GraphState) (fn tn : String) (w : Option Nat) : GraphState :=
  { g with edgeWeights := dictSet g.edgeWeights (fn ++ "-" ++ tn) (w.getD 1) }

/-- The whole `graph_add_edge` branch: create missing endpoints, append the
edge if absent, record the weight. -/
def addEdgeStep (g : GraphState) (fn tn : String) (w : Option Nat) : GraphState :=
  updWeight (updAdj (ensureNode (ensureNode g fn) tn) fn tn) fn tn w

/-- One execute step of the graph animator. -/
def graphStep (g : GraphState) : GraphOp → GraphState
  | .addNode n =>
      { g with
        nodes := nodesAdd g.nodes n
        adjacency := if dictHas g.adjacency n then g.adjacency else dictSet g.adjacency n [] }
  | .addEdge fn tn w => addEdgeStep g fn tn w
  | .dfs n => graphTraverse g n
  | .bfs n => graphTraverse g n
where
  /-- The shared `graph_dfs`/`graph_bfs` branch: the start node defaults to
  the first dict key; it is appended if unvisited, then up to two of its
  neighbours are appended. -/
  graphTraverse (g : GraphState) (n : Option String) : GraphState :=
    let start := match n with
      | some s => some s
      | none => g.nodes.head?
    match start with
    | none => g
    | some st =>
        if st ∈ g.visitedOrder then g
        else
          let visited := g.visitedOrder ++ [st]
          let visited :=
            if dictHas g.adjacency st then
              visitNeighbors visited ((dictGet g.adjacency st []).take 2)
            else visited
          { g with visitedOrder := visited }

/-! ### Hash-table simulator (`_animate_hash_table`)

```python
table_size = 7
hash_table = [[] for _ in range(table_size)]
collision_count = 0

def hash_function(key):
    return hash(str(key)) % table_size
```
`hash` is Python's built-in, salted once per interpreter process; it is
embedded as the oracle parameter `h : String → Nat`.
-/

/-- `table_size` of `_animate_hash_table`. -/
def tableSize : Nat := 7

/-- State of `_animate_hash_table`: the seven chains and the collision
counter. -/
structure HashState where
  buckets : List (List String)
  collisions : Nat
deriving DecidableEq

/-- `hash_table = [[] for _ in range(table_size)]` and `collision_count = 0`. -/
def initHash : HashState := ⟨List.replicate tableSize [], 0⟩

/-- `hash_function(key) = hash(str(key)) % table_size` with the process's
string hash `h`. -/
def hashIndex (h : String → Nat) (key : String) : Nat :=
  h key % tableSize

/-- A post-operation record of the hash animator: the state, the highlighted
bucket index passed to `draw_hash_table_frame`, and the `step_info`
diagnostic string. -/
structure HashSnap where
  state : HashState
  highlight : Option Nat
  diag : String
deriving DecidableEq

/-- Diagnostic of a completed `hash_insert` (the collision suffix is appended
when the chain holds more than one element after the insert). -/
def insertDiag (key : String) (i : Nat) (chainLenAfter : Nat) : String :=
  "✓ Inserted " ++ key ++ " at index " ++ toString i ++
    (if chainLenAfter > 1 then " (collision resolved by chaining)" else "")

/-- One execute step of the hash animator (lines 1817-1859), returning the
new state, highlight and diagnostic. -/
def hashExecF (h : String → Nat) (s : HashState) : HashOp → HashState × Option Nat × String
  | .insert key =>
      let i := hashIndex h key
      let chain := s.buckets.getD i []
      let cols := if chain ≠ [] then s.collisions + 1 else s.collisions
      let buckets :=
        if key ∈ chain then s.buckets else s.buckets.set i (chain ++ [key])
      let after := buckets.getD i []
      (⟨buckets, cols⟩, some i, insertDiag key i after.length)
  | .search key =>
      let i := hashIndex h key
      let found := key ∈ s.buckets.getD i []
      (s, some i,
        "✓ Search for " ++ key ++ ": " ++ (if found then "Found" else "Not found")
          ++ " at index " ++ toString i)
  | .delete key =>
      let i := hashIndex h key
      let chain := s.buckets.getD i []
      if key ∈ chain then
        (⟨s.buckets.set i (chain.erase key), s.collisions⟩, some i,
          "✓ Deleted " ++ key ++ " from index " ++ toString i)
      else
        (s, some i, "✗ " ++ key ++ " not found for deletion")

/-- The run of the hash animator: one `HashSnap` per operation, in order. -/
def hashRunF (h : String → Nat) (s : HashState) : List HashOp → List HashSnap
  | [] => []
  | op :: ops =>
      let r := hashExecF h s op
      ⟨r.1, r.2.1, r.2.2⟩ :: hashRunF h r.1 ops

/-- The state after the whole run (the initial state when there is none). -/
def hashFinal (h : String → Nat) (ops : List HashOp) : HashState :=
  (ops.foldl (fun s op => (hashExecF h s op).1) initHash)

/-- First bucket index whose chain contains the key (the key's bucket
assignment readable off a final state). -/
def findBucket (buckets : List (List String)) (key : String) : Option Nat :=
  go buckets 0
where
  go : List (List String) → Nat → Option Nat
    | [], _ => none
    | c :: rest, i => if key ∈ c then some i else go rest (i + 1)

/-! ### Supporting lemmas -/

theorem pyInsert_length (l : List String) (i : Nat) (v : String) :
    (pyInsert l i v).length = l.length + 1 := by
  induction l generalizing i with
  | nil => cases i <;> simp [pyInsert]
  | cons x xs ih => cases i <;> simp [pyInsert, ih]

theorem pyInsert_at_length (l : List String) (v : String) :
    pyInsert l l.length v = l ++ [v] := by
  induction l with
  | nil => simp [pyInsert]
  | cons x xs ih => simp [pyInsert, ih]

theorem eraseIdx_length_le (l : List String) (i : Nat) :
    (l.eraseIdx i).length ≤ l.length := by
  induction l generalizing i with
  | nil => simp [List.eraseIdx]
  | cons x xs ih =>
      cases i with
      | zero => simp [List.eraseIdx]
      | succ n => simpa [List.eraseIdx] using ih n

theorem arrayStep_length (a : List String) (op : ArrayOp)
    (h : a.length ≤ maxSize) : (arrayStep a op).length ≤ maxSize := by
  cases op with
  | insert v idx =>
      simp only [arrayStep]
      split
      · next hc => rw [pyInsert_length]; omega
      · exact h
  | delete idx =>
      simp only [arrayStep]
      split
      · exact le_trans (eraseIdx_length_le _ _) h
      · exact h
  | append v =>
      simp only [arrayStep]
      split
      · next hc => simp; omega
      · exact h

/-! Dict lemmas for the graph simulator. -/

theorem dictGet_dictSet_self (d : List (String × α)) (k : String) (v : α) (dflt : α) :
    dictGet (dictSet d k v) k dflt = v := by
  induction d with
  | nil => simp [dictSet, dictGet]
  | cons p rest ih =>
      by_cases hk : p.1 = k
      · simp [dictSet, dictGet, hk]
      · simp [dictSet, dictGet, hk, ih]

theorem dictGet_dictSet_other (d : List (String × α)) (k k₀ : String) (v : α) (dflt : α)
    (h : k₀ ≠ k) : dictGet (dictSet d k v) k₀ dflt = dictGet d k₀ dflt := by
  induction d with
  | nil => simp [dictSet, dictGet, Ne.symm h]
  | cons p rest ih =>
      by_cases hk : p.1 = k
      · subst hk
        simp [dictSet, dictGet, Ne.symm h, h]
      · by_cases hk₀ : p.1 = k₀ <;> simp [dictSet, dictGet, hk, hk₀, ih, h]

theorem dictHas_dictSet_self (d : List (String × α)) (k : String) (v : α) :
    dictHas (dictSet d k v) k = true := by
  induction d with
  | nil => simp [dictSet, dictHas]
  | cons p rest ih =>
      by_cases hk : p.1 = k <;> simp [dictSet, dictHas, hk, ih]

theorem dictHas_dictSet_mono (d : List (String × α)) (k k₀ : String) (v : α)
    (h : dictHas d k₀ = true) : dictHas (dictSet d k v) k₀ = true := by
  induction d with
  | nil => simp [dictHas] at h
  | cons p rest ih =>
      simp only [dictHas, Bool.or_eq_true, decide_eq_true_eq] at h
      by_cases hk : p.1 = k
      · subst hk
        rcases h with h | h
        · simp [dictSet, dictHas, h]
        · simp [dictSet, dictHas, h]
      · rcases h with h | h
        · have hne : ¬k₀ = k := by rw [← h]; exact hk
          simp [dictSet, hk, dictHas, h, hne]
        · simp [dictSet, hk, dictHas, ih h]

theorem dictGet_of_dictHas_false (d : List (String × α)) (k : String) (dflt : α)
    (h : dictHas d k = false) : dictGet d k dflt = dflt := by
  induction d with
  | nil => simp [dictGet]
  | cons p rest ih =>
      simp only [dictHas, Bool.or_eq_false_iff, decide_eq_false_iff_not] at h
      simp [dictGet, h.1, ih h.2]

theorem nodesAdd_mem (ns : List String) (n : String) : n ∈ nodesAdd ns n := by
  by_cases h : n ∈ ns <;> simp [nodesAdd, h]

theorem nodesAdd_mono (ns : List String) (n m : String) (h : m ∈ ns) :
    m ∈ nodesAdd ns n := by
  by_cases hn : n ∈ ns <;> simp [nodesAdd, hn, h]

theorem nodesAdd_of_mem (ns : List String) (n : String) (h : n ∈ ns) :
    nodesAdd ns n = ns := by
  simp [nodesAdd, h]

theorem ensureNode_of_present (g : GraphState) (n : String)
    (hn : n ∈ g.nodes) (ha : dictHas g.adjacency n = true) :
    ensureNode g n = g := by
  simp [ensureNode, nodesAdd_of_mem _ _ hn, ha]

theorem ensureNode_nodes_self (g : GraphState) (n : String) :
    n ∈ (ensureNode g n).nodes := nodesAdd_mem _ _

theorem ensureNode_nodes_mono (g : GraphState) (n m : String) (h : m ∈ g.nodes) :
    m ∈ (ensureNode g n).nodes := nodesAdd_mono _ _ _ h

theorem ensureNode_has_self (g : GraphState) (n : String) :
    dictHas (ensureNode g n).adjacency n = true := by
  simp only [ensureNode]
  split
  · next h => exact h
  · exact dictHas_dictSet_self _ _ _

theorem ensureNode_has_mono (g : GraphState) (n m : String)
    (h : dictHas g.adjacency m = true) :
    dictHas (ensureNode g n).adjacency m = true := by
  simp only [ensureNode]
  split
  · exact h
  · exact dictHas_dictSet_mono _ _ _ _ h

theorem updAdj_nodes (g : GraphState) (fn tn : String) :
    (updAdj g fn tn).nodes = g.nodes := by
  simp only [updAdj]
  split <;> rfl

theorem updAdj_mem (g : GraphState) (fn tn : String) :
    tn ∈ dictGet (updAdj g fn tn).adjacency fn [] := by
  simp only [updAdj]
  split
  · next h => exact h
  · rw [dictGet_dictSet_self]
    exact List.mem_append_right _ (by simp)

theorem updAdj_has_mono (g : GraphState) (fn tn m : String)
    (h : dictHas g.adjacency m = true) :
    dictHas (updAdj g fn tn).adjacency m = true := by
  simp only [updAdj]
  split
  · exact h
  · exact dictHas_dictSet_mono _ _ _ _ h

/-- What holds of the graph right after `graph_add_edge`: both endpoints are
registered in `nodes` and `adjacency`, and the target is in the source's
adjacency list. -/
theorem graph_addEdge_spec (g : GraphState) (fn tn : String) (w : Option Nat) :
    fn ∈ (graphStep g (.addEdge fn tn w)).nodes ∧
    tn ∈ (graphStep g (.addEdge fn tn w)).nodes ∧
    dictHas (graphStep g (.addEdge fn tn w)).adjacency fn = true ∧
    dictHas (graphStep g (.addEdge fn tn w)).adjacency tn = true ∧
    tn ∈ dictGet (graphStep g (.addEdge fn tn w)).adjacency fn [] := by
  show fn ∈ (addEdgeStep g fn tn w).nodes ∧ tn ∈ (addEdgeStep g fn tn w).nodes ∧ _ ∧ _ ∧ _
  simp only [addEdgeStep, updWeight, updAdj_nodes]
  refine ⟨?_, ?_, ?_, ?_, ?_⟩
  · exact ensureNode_nodes_mono _ _ _ (ensureNode_nodes_self g fn)
  · exact ensureNode_nodes_self _ tn
  · exact updAdj_has_mono _ _ _ _ (ensureNode_has_mono _ _ _ (ensureNode_has_self g fn))
  · exact updAdj_has_mono _ _ _ _ (ensureNode_has_self _ tn)
  · exact updAdj_mem _ _ _

/-- A second `graph_add_edge` whose edge is already present changes neither
the vertex list nor any adjacency list (only the edge-weight entry is
rewritten). -/
theorem graph_addEdge_idem (g : GraphState) (fn tn : String) (w : Option Nat)
    (hfn : fn ∈ g.nodes) (htn : tn ∈ g.nodes)
    (hhfn : dictHas g.adjacency fn = true) (hhtn : dictHas g.adjacency tn = true)
    (hmem : tn ∈ dictGet g.adjacency fn []) :
    (graphStep g (.addEdge fn tn w)).nodes = g.nodes ∧
    (graphStep g (.addEdge fn tn w)).adjacency = g.adjacency := by
  have h₁ : ensureNode (ensureNode g fn) tn = g := by
    rw [ensureNode_of_present g fn hfn hhfn, ensureNode_of_present g tn htn hhtn]
  show (addEdgeStep g fn tn w).nodes = g.nodes ∧ (addEdgeStep g fn tn w).adjacency = g.adjacency
  simp [addEdgeStep, updWeight, h₁, updAdj, if_pos hmem]

/-! ### A small backtracking regex engine

`ContentAnalyzer` recognizes operations with `re.findall` / `re.search`.
The patterns it uses need only: character classes, literals (matched
case-insensitively under `re.IGNORECASE`), greedy `*`, `+` and `?`, the lazy
`.*?`, alternation, capture groups, the MULTILINE `^` anchor and the word
boundary `\b`.  The engine below gives Python's backtracking semantics for
exactly these constructs: alternatives are tried left to right, greedy
quantifiers longest first, lazy ones shortest first, and the first successful
outcome is the match. -/

/-- Embedded regular expressions.  Starred quantifiers range over character
classes (all the source's patterns have this shape); `opt` is the greedy `?`
over a subpattern; `group n` is capture group `n`. -/
inductive Re where
  | eps
  | ch (p : Char → Bool)
  | seq (a b : Re)
  | alt (a b : Re)
  | star (p : Char → Bool)
  | lazyStar (p : Char → Bool)
  | opt (r : Re)
  | group (n : Nat) (r : Re)
  | lineStart
  | wordB

/-- A matcher state: the previous character (for `^` and `\b`), the
remaining input, and the captures recorded so far. -/
structure MSt where
  prev : Option Char
  rest : List Char
  caps : List (Nat × List Char)

/-- Word characters for `\b` (ASCII `\w`). -/
def isWordChar (c : Char) : Bool :=
  (('a' ≤ c && c ≤ 'z') || ('A' ≤ c && c ≤ 'Z') || ('0' ≤ c && c ≤ '9') || c = '_')

def flatMapL (f : α → List β) : List α → List β
  | [] => []
  | x :: xs => f x ++ flatMapL f xs

/-- Outcomes of a greedy class star: consume the maximal run, backtracking to
shorter prefixes. -/
def starOutcomes (p : Char → Bool) (st : MSt) : List MSt :=
  let run := st.rest.takeWhile p
  ((List.range (run.length + 1)).reverse).map (fun i =>
    ⟨if i = 0 then st.prev else some (run.getD (i - 1) ' '), st.rest.drop i, st.caps⟩)

/-- Outcomes of a lazy class star: shortest prefix first. -/
def lazyOutcomes (p : Char → Bool) (st : MSt) : List MSt :=
  let run := st.rest.takeWhile p
  (List.range (run.length + 1)).map (fun i =>
    ⟨if i = 0 then st.prev else some (run.getD (i - 1) ' '), st.rest.drop i, st.caps⟩)

/-- All ways a pattern can match a prefix of the state's input, in Python's
backtracking priority order. -/
def mat : Re → MSt → List MSt
  | .eps, st => [st]
  | .ch p, st =>
      match st.rest with
      | [] => []
      | c :: cs => if p c then [⟨some c, cs, st.caps⟩] else []
  | .seq a b, st => flatMapL (mat b) (mat a st)
  | .alt a b, st => mat a st ++ mat b st
  | .star p, st => starOutcomes p st
  | .lazyStar p, st => lazyOutcomes p st
  | .opt r, st => mat r st ++ [st]
  | .group n r, st =>
      (mat r st).map (fun st₁ =>
        ⟨st₁.prev, st₁.rest, (n, st.rest.take (st.rest.length - st₁.rest.length)) :: st₁.caps⟩)
  | .lineStart, st =>
      match st.prev with
      | none => [st]
      | some c => if c = '\n' then [st] else []
  | .wordB, st =>
      let w₁ := match st.prev with | none => false | some c => isWordChar c
      let w₂ := match st.rest with | [] => false | c :: _ => isWordChar c
      if w₁ ≠ w₂ then [st] else []

/-- Try to match at the current position: the consumed text, the captures,
and the resume state of the first (highest-priority) outcome. -/
def tryAt (r : Re) (prev : Option Char) (rest : List Char) :
    Option (List Char × List (Nat × List Char) × Option Char × List Char) :=
  match mat r ⟨prev, rest, []⟩ with
  | [] => none
  | st :: _ => some (rest.take (rest.length - st.rest.length), st.caps, st.prev, st.rest)

/-- `re.findall`: scan left to right for non-overlapping matches; an empty
match advances one character. -/
def findallAux (r : Re) (prev : Option Char) (rest : List Char) :
    Nat → List (List Char × List (Nat × List Char))
  | 0 => []
  | fuel + 1 =>
      match tryAt r prev rest with
      | some (whole, caps, prev₁, rest₁) =>
          if whole.isEmpty then
            match rest with
            | [] => [(whole, caps)]
            | c :: cs => (whole, caps) :: findallAux r (some c) cs fuel
          else (whole, caps) :: findallAux r prev₁ rest₁ fuel
      | none =>
          match rest with
          | [] => []
          | c :: cs => findallAux r (some c) cs fuel

def findall (r : Re) (text : List Char) : List (List Char × List (Nat × List Char)) :=
  findallAux r none text (text.length + 1)

/-- `re.search`: the first match anywhere, if any. -/
def searchRe (r : Re) : Option Char → List Char → Option (List Char × List (Nat × List Char))
  | prev, [] => (tryAt r prev []).map (fun x => (x.1, x.2.1))
  | prev, c :: cs =>
      match tryAt r prev (c :: cs) with
      | some x => some (x.1, x.2.1)
      | none => searchRe r (some c) cs

/-- Group lookup; an unparticipating group yields the empty string, as
`re.findall` does. -/
def capGet (caps : List (Nat × List Char)) (n : Nat) : List Char :=
  match caps with
  | [] => []
  | (m, v) :: rest => if m = n then v else capGet rest n

/-- `re.findall` with a single capture group: the group-1 strings. -/
def findall1 (r : Re) (text : List Char) : List String :=
  (findall r text).map (fun m => String.mk (capGet m.2 1))

/-- `re.findall` with two capture groups: pairs of group strings. -/
def findall2 (r : Re) (text : List Char) : List (String × String) :=
  (findall r text).map (fun m => (String.mk (capGet m.2 1), String.mk (capGet m.2 2)))

/-- Number of matches (for patterns iterated only for their count). -/
def findallCount (r : Re) (text : List Char) : Nat :=
  (findall r text).length

/-! #### Pattern-building helpers and character classes -/

/-- Sequence a list of subpatterns. -/
def cat (rs : List Re) : Re := rs.foldr .seq .eps

/-- A literal matched case-insensitively (`re.IGNORECASE`). -/
def litCI (s : String) : Re :=
  cat (s.data.map (fun c => .ch (fun x => x.toLower = c.toLower)))

/-- A single exact character. -/
def chE (c : Char) : Re := .ch (fun x => x = c)

/-- Greedy `+` over a class (`xx*`, longest first). -/
def plusRe (p : Char → Bool) : Re := .seq (.ch p) (.star p)

/-- Python `\s`. -/
def spC (c : Char) : Bool :=
  c = ' ' || c = '\t' || c = '\n' || c = '\r' || c = '\x0b' || c = '\x0c'

/-- Python `\d`. -/
def digC (c : Char) : Bool := '0' ≤ c && c ≤ '9'

/-- `[A-Za-z0-9]`. -/
def alnumC (c : Char) : Bool :=
  ('a' ≤ c && c ≤ 'z') || ('A' ≤ c && c ≤ 'Z') || digC c

/-- `[A-Za-z]`. -/
def alphaC (c : Char) : Bool := ('a' ≤ c && c ≤ 'z') || ('A' ≤ c && c ≤ 'Z')

/-- `[A-Z]` (used without `re.IGNORECASE`). -/
def upperC (c : Char) : Bool := 'A' ≤ c && c ≤ 'Z'

/-- Python `\w` (ASCII). -/
def wordC (c : Char) : Bool := alnumC c || c = '_'

/-- `.` (anything but a newline). -/
def dotC (c : Char) : Bool := c ≠ '\n'

/-- `[^,]`. -/
def notCommaC (c : Char) : Bool := c ≠ ','

/-- The apostrophe character (39). -/
def squote : Char := Char.ofNat 39

/-- The quote class `["\']`. -/
def quoteC (c : Char) : Bool := c = '"' || c = squote

/-! ### The operation extractor
(`ContentAnalyzer._extract_data_structure_operations`) -/

/-- The operation records the extractor emits (one constructor per `type`
value of the dicts it builds; argument names follow the dict keys). -/
inductive ExOp where
  | stackPush (value : String)
  | stackPop
  | queueEnqueue (value : String)
  | queueDequeue
  | treeInsert (value : String)
  | listInsert (value : String)
  | listAppend (value : String)
  | listDelete
  | graphAddNode (node : String)
  | graphAddEdge (fromNode toNode : String)
  | graphDfs (node : String)
  | graphBfs (node : String)
  | hashInsert (key : String)
  | hashSearch (key : String)
  | hashDelete (key : String)
  | arrayInsert (value index : String)
  | arrayAppend (value : String)
  | arrayDelete (index : String)
deriving DecidableEq

def isPrefixL : List Char → List Char → Bool
  | [], _ => true
  | _ :: _, [] => false
  | a :: as, b :: bs => a = b && isPrefixL as bs

/-- Python substring test `needle in hay`. -/
def containsSub (needle : List Char) : List Char → Bool
  | [] => isPrefixL needle []
  | c :: rest => isPrefixL needle (c :: rest) || containsSub needle rest

def containsAny (hay : List Char) (ws : List String) : Bool :=
  ws.any (fun w => containsSub w.data hay)

/-- The characters stripped from extracted values:
`value.strip().strip('"\\'()[]{}')`. -/
def stripCharSet (c : Char) : Bool :=
  c = '"' || c = squote || c = '(' || c = ')' || c = '[' || c = ']' ||
    c = Char.ofNat 123 || c = Char.ofNat 125

/-- Strip the class from both ends (Python `str.strip`). -/
def pyStrip (p : Char → Bool) (s : List Char) : List Char :=
  ((s.dropWhile p).reverse.dropWhile p).reverse

/-- `value.strip().strip('"\\'()[]{}')`. -/
def cleanValue (v : String) : String :=
  String.mk (pyStrip stripCharSet (pyStrip spC v.data))

/-- The call-with-argument shape
`NAME\s*\(\s*["\']?([A-Za-z0-9]+)["\']?\s*\)` with an optional prefix (for
the `\.` and `OBJ\.` variants). -/
def callArg (pre : List Re) (fname : String) : Re :=
  cat (pre ++ [litCI fname, .star spC, chE '(', .star spC, .opt (.ch quoteC),
    .group 1 (plusRe alnumC), .opt (.ch quoteC), .star spC, chE ')'])

/-- The empty-call shape `NAME\s*\(\s*\)` with an optional prefix. -/
def emptyCall (pre : List Re) (fname : String) : Re :=
  cat (pre ++ [litCI fname, .star spC, chE '(', .star spC, chE ')'])

/-- `NAME\s*\(?\s*(\w+)\s*\)?`. -/
def wordArgOpt (fname : String) : Re :=
  cat [litCI fname, .star spC, .opt (chE '('), .star spC,
    .group 1 (plusRe wordC), .star spC, .opt (chE ')')]

/-- The six `push_patterns` of the stack branch, in source order. -/
def stackPushPatterns : List Re :=
  [callArg [] "push",
   callArg [chE '.'] "push",
   callArg [litCI "stack", chE '.'] "append",
   cat [litCI "add", plusRe spC, .group 1 (plusRe alnumC), plusRe spC,
     litCI "to", plusRe spC, litCI "stack"],
   cat [litCI "push", plusRe spC, .group 1 (plusRe alnumC)],
   cat [litCI "insert", plusRe spC, .group 1 (plusRe alnumC), plusRe spC,
     litCI "into", plusRe spC, litCI "stack"]]

/-- The five `pop_patterns` of the stack branch. -/
def stackPopPatterns : List Re :=
  [emptyCall [] "pop",
   emptyCall [chE '.'] "pop",
   emptyCall [litCI "stack", chE '.'] "pop",
   cat [litCI "remove", plusRe spC, litCI "from", plusRe spC, litCI "stack"],
   cat [litCI "pop", plusRe spC, litCI "element"]]

/-- The six `enqueue_patterns` of the queue branch. -/
def queueEnqPatterns : List Re :=
  [callArg [] "enqueue",
   callArg [chE '.'] "enqueue",
   callArg [litCI "queue", chE '.'] "append",
   cat [litCI "add", plusRe spC, .group 1 (plusRe alnumC), plusRe spC,
     litCI "to", plusRe spC, litCI "queue"],
   cat [litCI "enqueue", plusRe spC, .group 1 (plusRe alnumC)],
   cat [litCI "insert", plusRe spC, .group 1 (plusRe alnumC), plusRe spC,
     litCI "into", plusRe spC, litCI "queue"]]

/-- The five `dequeue_patterns` of the queue branch. -/
def queueDeqPatterns : List Re :=
  [emptyCall [] "dequeue",
   emptyCall [chE '.'] "dequeue",
   emptyCall [litCI "queue", chE '.'] "popleft",
   cat [litCI "remove", plusRe spC, litCI "from", plusRe spC, litCI "queue"],
   cat [litCI "dequeue", plusRe spC, litCI "element"]]

/-- `insert\s*\(\s*(\d+)\s*\)`. -/
def treeP1 : Re :=
  cat [litCI "insert", .star spC, chE '(', .star spC, .group 1 (plusRe digC),
    .star spC, chE ')']

/-- `createNode\s*\(\s*(\d+)\s*\)`. -/
def treeP2 : Re :=
  cat [litCI "createNode", .star spC, chE '(', .star spC, .group 1 (plusRe digC),
    .star spC, chE ')']

/-- `newNode.*?=.*?(\d+)`. -/
def treeP3 : Re :=
  cat [litCI "newNode", .lazyStar dotC, chE '=', .lazyStar dotC, .group 1 (plusRe digC)]

/-- `data\s*=\s*(\d+)`. -/
def treeP4 : Re :=
  cat [litCI "data", .star spC, chE '=', .star spC, .group 1 (plusRe digC)]

/-- `insert\s*\([^,]*,\s*(\d+)\s*\)`. -/
def treeP5 : Re :=
  cat [litCI "insert", .star spC, chE '(', .star notCommaC, chE ',', .star spC,
    .group 1 (plusRe digC), .star spC, chE ')']

/-- `delete\s*\(\s*\)` of the list branch. -/
def listDelP : Re := emptyCall [] "delete"

/-- `add.*node\s*\(?\s*(\w+)\s*\)?`. -/
def graphNodeP : Re :=
  cat [litCI "add", .star dotC, litCI "node", .star spC, .opt (chE '('), .star spC,
    .group 1 (plusRe wordC), .star spC, .opt (chE ')')]

/-- `add.*edge\s*\(?\s*(\w+)\s*,\s*(\w+)\s*\)?`. -/
def graphEdgeP : Re :=
  cat [litCI "add", .star dotC, litCI "edge", .star spC, .opt (chE '('), .star spC,
    .group 1 (plusRe wordC), .star spC, chE ',', .star spC,
    .group 2 (plusRe wordC), .star spC, .opt (chE ')')]

/-- `insert\s*\(\s*(\d+)\s*,?\s*(\d+)?\s*\)` of the array branch. -/
def arrayInsP : Re :=
  cat [litCI "insert", .star spC, chE '(', .star spC, .group 1 (plusRe digC),
    .star spC, .opt (chE ','), .star spC, .opt (.group 2 (plusRe digC)),
    .star spC, chE ')']

/-- `append\s*\(\s*(\d+)\s*\)` of the array branch. -/
def arrayAppP : Re :=
  cat [litCI "append", .star spC, chE '(', .star spC, .group 1 (plusRe digC),
    .star spC, chE ')']

/-- `delete\s*\(\s*(\d+)?\s*\)` of the array branch. -/
def arrayDelP : Re :=
  cat [litCI "delete", .star spC, chE '(', .star spC, .opt (.group 1 (plusRe digC)),
    .star spC, chE ')']

/-- `(?:^\d+\.|\-|\*)\s*(.+)` of the numbered-list fallback (MULTILINE). -/
def numberedP : Re :=
  cat [.alt (cat [.lineStart, plusRe digC, chE '.']) (.alt (chE '-') (chE '*')),
    .star spC, .group 1 (plusRe dotC)]

/-- `(?:push|add|insert).*?(\d+|[A-Za-z]+)`. -/
def pushInnerP : Re :=
  cat [.alt (litCI "push") (.alt (litCI "add") (litCI "insert")), .lazyStar dotC,
    .group 1 (.alt (plusRe digC) (plusRe alphaC))]

/-- `(?:pop|remove|delete)`. -/
def popInnerP : Re := .alt (litCI "pop") (.alt (litCI "remove") (litCI "delete"))

/-- `(?:enqueue|add|insert|put).*?(\d+|[A-Za-z]+)`. -/
def enqInnerP : Re :=
  cat [.alt (litCI "enqueue") (.alt (litCI "add") (.alt (litCI "insert") (litCI "put"))),
    .lazyStar dotC, .group 1 (.alt (plusRe digC) (plusRe alphaC))]

/-- `(?:dequeue|remove|take)`. -/
def deqInnerP : Re := .alt (litCI "dequeue") (.alt (litCI "remove") (litCI "take"))

/-- `\b(\d+|[A-Z])\b` (compiled without `re.IGNORECASE`). -/
def valuesP : Re :=
  cat [.wordB, .group 1 (.alt (plusRe digC) (.ch upperC)), .wordB]

/-- The stack branch: all push matches (pattern by pattern, each scanned left
to right, values sanitized, empties dropped) followed by all pop matches. -/
def stackBranch (text : String) : List ExOp :=
  flatMapL (fun p =>
      (findall1 p text.data).filterMap (fun v =>
        if cleanValue v = "" then none else some (ExOp.stackPush (cleanValue v))))
    stackPushPatterns
  ++ flatMapL (fun p => (findall p text.data).map (fun _ => ExOp.stackPop))
      stackPopPatterns

/-- The queue branch, same shape as the stack branch. -/
def queueBranch (text : String) : List ExOp :=
  flatMapL (fun p =>
      (findall1 p text.data).filterMap (fun v =>
        if cleanValue v = "" then none else some (ExOp.queueEnqueue (cleanValue v))))
    queueEnqPatterns
  ++ flatMapL (fun p => (findall p text.data).map (fun _ => ExOp.queueDequeue))
      queueDeqPatterns

/-- The tree branch with its internal two-level fallback. -/
def treeBranch (text : String) (tl : List Char) : List ExOp :=
  let ops :=
    (findall1 treeP1 text.data).map ExOp.treeInsert
    ++ (findall1 treeP2 text.data).map ExOp.treeInsert
    ++ (findall1 treeP3 text.data).map ExOp.treeInsert
    ++ (findall1 treeP4 text.data).map ExOp.treeInsert
    ++ (findall1 treeP5 text.data).map ExOp.treeInsert
  if ops = [] then
    if containsAny tl ["50", "30", "70", "20", "40", "60", "80"] then
      ["50", "30", "70", "20", "40", "60", "80"].map ExOp.treeInsert
    else
      ["10", "5", "15", "3", "7", "12", "18"].map ExOp.treeInsert
  else ops

/-- The linked-list branch with its sample fallback. -/
def listBranch (text : String) : List ExOp :=
  let ops :=
    (findall1 (wordArgOpt "insert") text.data).map ExOp.listInsert
    ++ (findall1 (wordArgOpt "append") text.data).map ExOp.listAppend
    ++ (findall listDelP text.data).map (fun _ => ExOp.listDelete)
  if ops = [] then
    [ExOp.listInsert "10", ExOp.listAppend "20", ExOp.listInsert "5", ExOp.listDelete]
  else ops

/-- The graph branch with traversal detection and sample fallback.  Note the
source tests the literal substring "depth.*first" (not a pattern). -/
def graphBranch (text : String) (tl : List Char) : List ExOp :=
  let ops :=
    (findall1 graphNodeP text.data).map ExOp.graphAddNode
    ++ (findall2 graphEdgeP text.data).map (fun m => ExOp.graphAddEdge m.1 m.2)
  let ops := ops ++
    (if containsSub "dfs".data tl || containsSub "depth.*first".data tl then
      [ExOp.graphDfs "A"]
    else if containsSub "bfs".data tl || containsSub "breadth.*first".data tl then
      [ExOp.graphBfs "A"]
    else [])
  if ops = [] then
    [ExOp.graphAddNode "A", ExOp.graphAddNode "B", ExOp.graphAddNode "C",
     ExOp.graphAddEdge "A" "B", ExOp.graphAddEdge "B" "C", ExOp.graphDfs "A"]
  else ops

/-- The hash branch with its sample fallback. -/
def hashBranch (text : String) : List ExOp :=
  let ops :=
    (findall1 (wordArgOpt "insert") text.data).map ExOp.hashInsert
    ++ (findall1 (wordArgOpt "search") text.data).map ExOp.hashSearch
    ++ (findall1 (wordArgOpt "delete") text.data).map ExOp.hashDelete
  if ops = [] then
    [ExOp.hashInsert "John", ExOp.hashInsert "Jane", ExOp.hashSearch "John",
     ExOp.hashInsert "Bob", ExOp.hashDelete "Jane"]
  else ops

/-- The array branch with its sample fallback (`match[1] or '0'` and
`match or '0'` default the indexes). -/
def arrayBranch (text : String) : List ExOp :=
  let ops :=
    (findall2 arrayInsP text.data).map (fun m =>
      ExOp.arrayInsert m.1 (if m.2 = "" then "0" else m.2))
    ++ (findall1 arrayAppP text.data).map ExOp.arrayAppend
    ++ (findall1 arrayDelP text.data).map (fun m =>
      ExOp.arrayDelete (if m = "" then "0" else m))
  if ops = [] then
    [ExOp.arrayAppend "10", ExOp.arrayAppend "20", ExOp.arrayInsert "15" "1",
     ExOp.arrayDelete "0"]
  else ops

/-- The numbered-list fallback (source lines 369-389). -/
def numberedFallback (text : String) (tl : List Char) : List ExOp :=
  flatMapL (fun opText =>
      let otl := opText.data.map Char.toLower
      if containsSub "stack".data tl || containsAny otl ["push", "pop"] then
        match searchRe pushInnerP none opText.data with
        | some m => [ExOp.stackPush (String.mk (capGet m.2 1))]
        | none =>
            match searchRe popInnerP none opText.data with
            | some _ => [ExOp.stackPop]
            | none => []
      else if containsSub "queue".data tl || containsAny otl ["enqueue", "dequeue"] then
        match searchRe enqInnerP none opText.data with
        | some m => [ExOp.queueEnqueue (String.mk (capGet m.2 1))]
        | none =>
            match searchRe deqInnerP none opText.data with
            | some _ => [ExOp.queueDequeue]
            | none => []
      else [])
    (findall1 numberedP text.data)

/-- `list(dict.fromkeys(all_values))`: order-preserving deduplication. -/
def dedupAux (seen : List String) : List String → List String
  | [] => []
  | v :: rest =>
      if v ∈ seen then dedupAux seen rest else v :: dedupAux (seen ++ [v]) rest

def dedupKeepOrder (l : List String) : List String := dedupAux [] l

/-- `for i, value in enumerate(unique_values[:4])`: push each value, with a
pop after the element at index 2. -/
def stackValsLoop (i : Nat) : List String → List ExOp
  | [] => []
  | v :: rest =>
      ExOp.stackPush v ::
        ((if i = 2 then [ExOp.stackPop] else []) ++ stackValsLoop (i + 1) rest)

def queueValsLoop (i : Nat) : List String → List ExOp
  | [] => []
  | v :: rest =>
      ExOp.queueEnqueue v ::
        ((if i = 2 then [ExOp.queueDequeue] else []) ++ queueValsLoop (i + 1) rest)

/-- The canonical stack seed. -/
def stackSeed : List ExOp :=
  [ExOp.stackPush "10", ExOp.stackPush "20", ExOp.stackPop, ExOp.stackPush "30"]

/-- The canonical queue seed. -/
def queueSeed : List ExOp :=
  [ExOp.queueEnqueue "A", ExOp.queueEnqueue "B", ExOp.queueDequeue,
   ExOp.queueEnqueue "C"]

/-- The final value-based fallback (source lines 391-445).  When fewer than
two values occur in the text and none of the keyword guards fire, the result
is the empty list. -/
def valuesFallback (text : String) (tl : List Char) : List ExOp :=
  let uniq := dedupKeepOrder (findall1 valuesP text.data)
  if uniq ≠ [] ∧ 2 ≤ uniq.length then
    if containsSub "stack".data tl || containsAny tl ["push", "pop", "lifo"] then
      let ops := stackValsLoop 0 (uniq.take 4)
      if 1 < ops.length then ops ++ [ExOp.stackPop] else ops
    else if containsSub "queue".data tl
        || containsAny tl ["enqueue", "dequeue", "fifo"] then
      let ops := queueValsLoop 0 (uniq.take 4)
      if 1 < ops.length then ops ++ [ExOp.queueDequeue] else ops
    else
      (uniq.take 3).map ExOp.stackPush ++ [ExOp.stackPop]
  else
    if containsSub "stack".data tl || containsAny tl ["push", "pop", "lifo"] then
      stackSeed
    else if containsSub "queue".data tl
        || containsAny tl ["enqueue", "dequeue", "fifo"] then
      queueSeed
    else if containsAny tl ["data structure", "push", "pop", "insert", "delete"] then
      stackSeed
    else []

/-- `_extract_data_structure_operations`: the mutually exclusive
structure-kind dispatch (first matching kind wins), then the numbered-list
fallback, then the value-based fallback. -/
def extractOps (text : String) : List ExOp :=
  let tl := text.data.map Char.toLower
  let ops :=
    if containsSub "stack".data tl then stackBranch text
    else if containsSub "queue".data tl then queueBranch text
    else if containsAny tl
        ["tree", "binary tree", "bst", "binary search tree", "node", "struct node"] then
      treeBranch text tl
    else if containsAny tl ["linked list", "linkedlist", "list"] then listBranch text
    else if containsSub "graph".data tl then graphBranch text tl
    else if containsAny tl ["hash", "hash table", "hashtable"] then hashBranch text
    else if containsSub "array".data tl then arrayBranch text
    else []
  let ops := if ops = [] then numberedFallback text tl else ops
  if ops = [] then valuesFallback text tl else ops

/-! ### The classifier (`ContentAnalyzer.analyze_content`) -/

/-- Python `str.count`: non-overlapping occurrences, scanning left to
right. -/
def countAux (needle : List Char) : List Char → Nat → Nat
  | _, 0 => 0
  | hay, fuel + 1 =>
      match hay with
      | [] => 0
      | _ :: rest =>
          if isPrefixL needle hay then 1 + countAux needle (hay.drop needle.length) fuel
          else countAux needle rest fuel

def pyCount (hay needle : List Char) : Nat :=
  if needle.isEmpty then hay.length + 1 else countAux needle hay (hay.length + 1)

/-- One row of `self.content_patterns`: the pattern lists of a category, plus
the keyword subset that `analyze_content` weights 5 instead of 2 for this
category (empty when the category has no special weighting). -/
structure CatPatterns where
  keywords : List String
  operations : List String
  patterns : List String
  symbols : List String
  concepts : List String
  special : List String

/-- `self.content_patterns`, in dict insertion order. -/
def contentPatterns : List (String × CatPatterns) :=
  [("data_structures",
    ⟨["stack", "queue", "array", "linked list", "tree", "graph", "hash", "heap"],
     ["push", "pop", "enqueue", "dequeue", "insert", "delete", "search", "traverse"],
     [], [], [], []⟩),
   ("algorithms",
    ⟨["algorithm", "sort", "search", "recursion", "iteration", "divide", "conquer"],
     [],
     ["bubble sort", "merge sort", "quick sort", "binary search", "linear search"],
     [], [], []⟩),
   ("mathematics",
    ⟨["equation", "formula", "function", "graph", "derivative", "integral", "matrix"],
     [], [],
     ["=", "+", "-", "*", "/", "^", "∫", "∂", "Σ"],
     [],
     ["equation", "function", "derivative", "integral"]⟩),
   ("physics",
    ⟨["force", "motion", "energy", "wave", "velocity", "acceleration", "mass",
       "kinematics", "dynamics", "momentum"],
     [],
     ["m/s", "m/s²", "kg", "N", "J", "W", "Hz"],
     [],
     ["newton", "gravity", "momentum", "friction"],
     ["kinematics", "dynamics", "momentum", "velocity", "acceleration"]⟩),
   ("chemistry",
    ⟨["reaction", "molecule", "atom", "bond", "element", "compound", "chemical",
       "formula"],
     [],
     ["H2O", "CO2", "NaCl", "chemical equation", "pH", "acid", "base"],
     [],
     ["equilibrium", "catalyst", "oxidation", "reduction"],
     ["reaction", "molecule", "chemical", "formula"]⟩),
   ("biology",
    ⟨["cell", "dna", "organism", "evolution", "gene", "protein", "enzyme"],
     [],
     ["mitosis", "meiosis", "photosynthesis", "respiration"],
     [],
     ["nucleus", "membrane", "chromosome", "inheritance", "adaptation"],
     ["cell", "dna", "organism", "gene"]⟩),
   ("business",
    ⟨["process", "workflow", "strategy", "analysis", "diagram", "flowchart"],
     [], [], [],
     ["decision", "approval", "review", "implementation"],
     []⟩)]

/-- The score loop of `analyze_content` for one category: keyword hits at
weight 2 (or 5 for the category's special keywords), operation/pattern hits
at 3, symbol hits (on the original text) at 1, concept hits at 2. -/
def catScore (text : String) (cp : CatPatterns) : Nat :=
  let tl := text.data.map Char.toLower
  (cp.keywords.foldl (fun acc kw =>
      acc + pyCount tl (kw.data.map Char.toLower) * (if kw ∈ cp.special then 5 else 2)) 0)
  + ((cp.operations ++ cp.patterns).foldl (fun acc p =>
      acc + pyCount tl (p.data.map Char.toLower) * 3) 0)
  + (cp.symbols.foldl (fun acc s => acc + pyCount text.data s.data * 1) 0)
  + (cp.concepts.foldl (fun acc c =>
      acc + pyCount tl (c.data.map Char.toLower) * 2) 0)

/-- `content_scores`, in category order. -/
def contentScores (text : String) : List (String × Nat) :=
  contentPatterns.map (fun p => (p.1, catScore text p.2))

/-- Python `max(iterable, key=f)`: the first entry whose value no later entry
strictly exceeds. -/
def pyMaxEntry (p : String × Nat) : List (String × Nat) → String × Nat
  | [] => p
  | q :: rest => if q.2 > p.2 then pyMaxEntry q rest else pyMaxEntry p rest

/-- The arg-max entry of the score table
(`max(content_scores, key=content_scores.get)`). -/
def primaryEntry (text : String) : String × Nat :=
  match contentScores text with
  | [] => ("general", 0)
  | p :: rest => pyMaxEntry p rest

/-- `primary_type`: the arg-max category when any score is non-zero, else
`'general'`. -/
def analyzeType (text : String) : String :=
  if (contentScores text).any (fun p => p.2 ≠ 0) then (primaryEntry text).1
  else "general"

/-! ### Relational presentation of the hash-table execute section (claim C1)

One constructor per control path of the `hash_insert` / `hash_search` /
`hash_delete` branches; determinism of the simulator is the functionality of
this relation on runs. -/

/-- The branches of the hash animator's execute section as a relation from a
state and operation to the (state, highlight, step-info) result. -/
inductive HashExec (h : String → Nat) (s : HashState) :
    HashOp → HashState × Option Nat × String → Prop
  | insertDup (k : String)
      (hmem : k ∈ s.buckets.getD (hashIndex h k) []) :
      HashExec h s (.insert k)
        (⟨s.buckets, s.collisions + 1⟩, some (hashIndex h k),
          insertDiag k (hashIndex h k) (s.buckets.getD (hashIndex h k) []).length)
  | insertNewCol (k : String)
      (hnot : k ∉ s.buckets.getD (hashIndex h k) [])
      (hne : s.buckets.getD (hashIndex h k) [] ≠ []) :
      HashExec h s (.insert k)
        (⟨s.buckets.set (hashIndex h k) (s.buckets.getD (hashIndex h k) [] ++ [k]),
            s.collisions + 1⟩,
          some (hashIndex h k),
          insertDiag k (hashIndex h k)
            ((s.buckets.set (hashIndex h k)
              (s.buckets.getD (hashIndex h k) [] ++ [k])).getD (hashIndex h k) []).length)
  | insertNewEmpty (k : String)
      (hemp : s.buckets.getD (hashIndex h k) [] = []) :
      HashExec h s (.insert k)
        (⟨s.buckets.set (hashIndex h k) (s.buckets.getD (hashIndex h k) [] ++ [k]),
            s.collisions⟩,
          some (hashIndex h k),
          insertDiag k (hashIndex h k)
            ((s.buckets.set (hashIndex h k)
              (s.buckets.getD (hashIndex h k) [] ++ [k])).getD (hashIndex h k) []).length)
  | searchOp (k : String) :
      HashExec h s (.search k)
        (s, some (hashIndex h k),
          "✓ Search for " ++ k ++ ": "
            ++ (if k ∈ s.buckets.getD (hashIndex h k) [] then "Found" else "Not found")
            ++ " at index " ++ toString (hashIndex h k))
  | deleteFound (k : String)
      (hmem : k ∈ s.buckets.getD (hashIndex h k) []) :
      HashExec h s (.delete k)
        (⟨s.buckets.set (hashIndex h k) ((s.buckets.getD (hashIndex h k) []).erase k),
            s.collisions⟩,
          some (hashIndex h k),
          "✓ Deleted " ++ k ++ " from index " ++ toString (hashIndex h k))
  | deleteMissing (k : String)
      (hnot : k ∉ s.buckets.getD (hashIndex h k) []) :
      HashExec h s (.delete k)
        (s, some (hashIndex h k), "✗ " ++ k ++ " not found for deletion")

/-- The relation is functional: the branch conditions are mutually
exclusive, so a state and an operation determine the result. -/
theorem hashExec_det {h : String → Nat} {s : HashState} {op : HashOp}
    {r₁ r₂ : HashState × Option Nat × String}
    (h₁ : HashExec h s op r₁) (h₂ : HashExec h s op r₂) : r₁ = r₂ := by
  cases h₁ <;> cases h₂ <;> first | rfl | simp_all

/-- The execute function realizes the relation. -/
theorem hashExec_fn (h : String → Nat) (s : HashState) (op : HashOp) :
    HashExec h s op (hashExecF h s op) := by
  cases op with
  | insert k =>
      by_cases hmem : k ∈ s.buckets.getD (hashIndex h k) []
      · have hne : s.buckets.getD (hashIndex h k) [] ≠ [] := List.ne_nil_of_mem hmem
        have he : hashExecF h s (.insert k) =
            (⟨s.buckets, s.collisions + 1⟩, some (hashIndex h k),
              insertDiag k (hashIndex h k) (s.buckets.getD (hashIndex h k) []).length) := by
          simp only [hashExecF]
          rw [if_pos hmem, if_pos hne]
        rw [he]
        exact .insertDup k hmem
      · by_cases hemp : s.buckets.getD (hashIndex h k) [] = []
        · have he : hashExecF h s (.insert k) =
              (⟨s.buckets.set (hashIndex h k) (s.buckets.getD (hashIndex h k) [] ++ [k]),
                  s.collisions⟩,
                some (hashIndex h k),
                insertDiag k (hashIndex h k)
                  ((s.buckets.set (hashIndex h k)
                    (s.buckets.getD (hashIndex h k) [] ++ [k])).getD
                      (hashIndex h k) []).length) := by
            simp only [hashExecF]
            rw [if_neg hmem, if_neg (by simpa using hemp)]
          rw [he]
          exact .insertNewEmpty k hemp
        · have he : hashExecF h s (.insert k) =
              (⟨s.buckets.set (hashIndex h k) (s.buckets.getD (hashIndex h k) [] ++ [k]),
                  s.collisions + 1⟩,
                some (hashIndex h k),
                insertDiag k (hashIndex h k)
                  ((s.buckets.set (hashIndex h k)
                    (s.buckets.getD (hashIndex h k) [] ++ [k])).getD
                      (hashIndex h k) []).length) := by
            simp only [hashExecF]
            rw [if_neg hmem, if_pos hemp]
          rw [he]
          exact .insertNewCol k hmem hemp
  | search k => exact .searchOp k
  | delete k =>
      by_cases hmem : k ∈ s.buckets.getD (hashIndex h k) []
      · have he : hashExecF h s (.delete k) =
            (⟨s.buckets.set (hashIndex h k) ((s.buckets.getD (hashIndex h k) []).erase k),
                s.collisions⟩,
              some (hashIndex h k),
              "✓ Deleted " ++ k ++ " from index " ++ toString (hashIndex h k)) := by
          simp only [hashExecF]
          rw [if_pos hmem]
        rw [he]
        exact .deleteFound k hmem
      · have he : hashExecF h s (.delete k) =
            (s, some (hashIndex h k), "✗ " ++ k ++ " not found for deletion") := by
          simp only [hashExecF]
          rw [if_neg hmem]
        rw [he]
        exact .deleteMissing k hmem

/-- A run of the hash animator as a relation: one snapshot per operation. -/
inductive HashRunFrom (h : String → Nat) : HashState → List HashOp → List HashSnap → Prop
  | nil (s : HashState) : HashRunFrom h s [] []
  | cons (s : HashState) (op : HashOp) (r : HashState × Option Nat × String)
      (ops : List HashOp) (snaps : List HashSnap) :
      HashExec h s op r →
      HashRunFrom h r.1 ops snaps →
      HashRunFrom h s (op :: ops) (⟨r.1, r.2.1, r.2.2⟩ :: snaps)

/-- The run function realizes the run relation. -/
theorem hashRunFrom_fn (h : String → Nat) (s : HashState) (ops : List HashOp) :
    HashRunFrom h s ops (hashRunF h s ops) := by
  induction ops generalizing s with
  | nil => exact .nil s
  | cons op rest ih =>
      exact .cons s op (hashExecF h s op) rest _ (hashExec_fn h s op) (ih _)

/-- The state of the final snapshot (the initial state when there is none). -/
def lastStateOf (snaps : List HashSnap) : HashState :=
  (snaps.map HashSnap.state).getLastD initHash

/-! ### Intent model for the hash function (claim C2)

The frame caption the animator itself draws reads `h(key) = key % 7`, its
"Hash Calculation Demo" prints `hash({key}) = {key} % 7 = {hash_val}`, and
the repository's tests annotate the keys 15, 22, 8, 29 with
`hash(15) = 15 % 7 = 1` etc.  That documented intent is the numeric value of
the key modulo 7; the implementation instead calls Python's per-process
salted string hash.  The intent is modelled as `numericValue`. -/

/-- The numeric value of a digit string (the documented-intent string-hash
oracle `hash(str(key)) = key` for numeric keys). -/
def numericValue (s : String) : Nat :=
  s.data.foldl (fun n c => n * 10 + (c.toNat - 48)) 0

theorem getD_set_other {α : Type} (l : List α) (i j : Nat) (v : α) (dflt : α)
    (hij : i ≠ j) : (l.set i v).getD j dflt = l.getD j dflt := by
  induction l generalizing i j with
  | nil => simp
  | cons x xs ih =>
      cases i with
      | zero =>
          cases j with
          | zero => exact absurd rfl hij
          | succ m => simp [List.set, List.getD]
      | succ n =>
          cases j with
          | zero => simp [List.set, List.getD]
          | succ m =>
              simp only [List.set, List.getD_cons_succ]
              exact ih n m (by omega)

theorem getD_set_self_of_lt {α : Type} (l : List α) (i : Nat) (v : α) (dflt : α)
    (hi : i < l.length) : (l.set i v).getD i dflt = v := by
  induction l generalizing i with
  | nil => simp at hi
  | cons x xs ih =>
      cases i with
      | zero => simp [List.set, List.getD]
      | succ n =>
          simp only [List.set, List.getD_cons_succ]
          exact ih n (by simpa using hi)

theorem set_of_length_le {α : Type} (l : List α) (i : Nat) (v : α)
    (hi : l.length ≤ i) : l.set i v = l := by
  induction l generalizing i with
  | nil => simp
  | cons x xs ih =>
      cases i with
      | zero => simp at hi
      | succ n => simp only [List.set]; rw [ih n (by simpa using hi)]

/-- Bucket-membership invariant: every key sits in the bucket its hash index
names, and one execute step preserves this. -/
theorem hashExec_bucket_pres (h : String → Nat) (s : HashState) (op : HashOp)
    (inv : ∀ j k, k ∈ s.buckets.getD j [] → hashIndex h k = j) :
    ∀ j k, k ∈ (hashExecF h s op).1.buckets.getD j [] → hashIndex h k = j := by
  cases op with
  | insert key =>
      intro j k hk
      simp only [hashExecF] at hk
      by_cases hmem : key ∈ s.buckets.getD (hashIndex h key) []
      · rw [if_pos hmem] at hk
        exact inv j k hk
      · rw [if_neg hmem] at hk
        by_cases hij : hashIndex h key = j
        · subst hij
          by_cases hlen : hashIndex h key < s.buckets.length
          · rw [getD_set_self_of_lt _ _ _ _ hlen] at hk
            rcases List.mem_append.mp hk with hk | hk
            · exact inv _ k hk
            · simp only [List.mem_singleton] at hk
              subst hk; rfl
          · rw [set_of_length_le _ _ _ (by omega)] at hk
            exact inv _ k hk
        · rw [getD_set_other _ _ _ _ _ hij] at hk
          exact inv j k hk
  | search key =>
      intro j k hk
      simp only [hashExecF] at hk
      exact inv j k hk
  | delete key =>
      intro j k hk
      simp only [hashExecF] at hk
      by_cases hmem : key ∈ s.buckets.getD (hashIndex h key) []
      · rw [if_pos hmem] at hk
        by_cases hij : hashIndex h key = j
        · subst hij
          by_cases hlen : hashIndex h key < s.buckets.length
          · rw [getD_set_self_of_lt _ _ _ _ hlen] at hk
            exact inv _ k (List.mem_of_mem_erase hk)
          · rw [set_of_length_le _ _ _ (by omega)] at hk
            exact inv _ k hk
        · rw [getD_set_other _ _ _ _ _ hij] at hk
          exact inv j k hk
      · rw [if_neg hmem] at hk
        exact inv j k hk

theorem getD_replicate_nil (n j : Nat) :
    (List.replicate n ([] : List String)).getD j [] = [] := by
  induction n generalizing j with
  | zero => simp
  | succ m ih =>
      cases j with
      | zero => simp [List.replicate]
      | succ i => rw [List.replicate, List.getD_cons_succ]; exact ih i

/-- Over a whole run from the empty table, a key found in bucket `j` of the
final state has hash index `j`. -/
theorem mem_bucket_hashIndex (h : String → Nat) (ops : List HashOp) :
    ∀ j k, k ∈ (hashFinal h ops).buckets.getD j [] → hashIndex h k = j := by
  have main : ∀ (ops : List HashOp) (s : HashState),
      (∀ j k, k ∈ s.buckets.getD j [] → hashIndex h k = j) →
      ∀ j k, k ∈ (ops.foldl (fun s op => (hashExecF h s op).1) s).buckets.getD j [] →
        hashIndex h k = j := by
    intro ops
    induction ops with
    | nil => intro s inv; exact inv
    | cons op rest ih =>
        intro s inv
        exact ih _ (hashExec_bucket_pres h s op inv)
  intro j k
  refine main ops initHash ?_ j k
  intro j₀ k₀ hk₀
  rw [initHash] at hk₀
  simp only [getD_replicate_nil] at hk₀
  exact absurd hk₀ (List.not_mem_nil k₀)

/-! ### Claim theorems: C1, C2, C3, C4, C5, C6, C10 -/

/-- Claim C1: the hash-table simulator is deterministic — any two runs of the
same operation sequence from the fresh initial table produce the same
snapshot sequence (states, highlighted bucket indexes and diagnostics), and
in particular every key's final bucket assignment agrees between the runs.
The per-process salt of Python's string `hash` is the explicit oracle `h`,
part of the (identical) input of both runs. -/
theorem C1_determinism :
    ∀ (h : String → Nat) (ops : List HashOp) (snaps₁ snaps₂ : List HashSnap),
      HashRunFrom h initHash ops snaps₁ → HashRunFrom h initHash ops snaps₂ →
      snaps₁ = snaps₂ ∧
      ∀ k, findBucket (lastStateOf snaps₁).buckets k =
        findBucket (lastStateOf snaps₂).buckets k := by
  have det : ∀ (h : String → Nat) (ops : List HashOp) (s : HashState)
      (snaps₁ snaps₂ : List HashSnap),
      HashRunFrom h s ops snaps₁ → HashRunFrom h s ops snaps₂ → snaps₁ = snaps₂ := by
    intro h ops
    induction ops with
    | nil =>
        intro s snaps₁ snaps₂ h₁ h₂
        cases h₁; cases h₂; rfl
    | cons op rest ih =>
        intro s snaps₁ snaps₂ h₁ h₂
        cases h₁ with
        | cons _ _ r₁ _ snaps₁ he₁ hr₁ =>
            cases h₂ with
            | cons _ _ r₂ _ snaps₂ he₂ hr₂ =>
                have hr : r₁ = r₂ := hashExec_det he₁ he₂
                subst hr
                rw [ih _ _ _ hr₁ hr₂]
  intro h ops snaps₁ snaps₂ h₁ h₂
  have he := det h ops initHash snaps₁ snaps₂ h₁ h₂
  exact ⟨he, fun k => by rw [he]⟩

/-- Witness for C1: two runs of two inserts under a concrete oracle. -/
theorem C1_determinism_witness :
    hashRunF (fun _ => 1) initHash [.insert "15", .insert "22"] =
      hashRunF (fun _ => 1) initHash [.insert "15", .insert "22"] ∧
    findBucket (lastStateOf (hashRunF (fun _ => 1) initHash
        [.insert "15", .insert "22"])).buckets "15" =
      findBucket (lastStateOf (hashRunF (fun _ => 1) initHash
        [.insert "15", .insert "22"])).buckets "15" := by
  have h := C1_determinism (fun _ => 1) [.insert "15", .insert "22"] _ _
    (hashRunFrom_fn _ _ _) (hashRunFrom_fn _ _ _)
  exact ⟨h.1, h.2 "15"⟩

/-- Claim C2: the bucket outcome of inserting the keys 15, 22, 8, 29 is
determined by the process's string-hash oracle, not by the keys' numeric
values — the claimed outcome (bucket 1 holding the four keys with collision
counter 3) occurs exactly when the oracle happens to send each key to 1
mod 7.  Under the documented-intent oracle `numericValue` the claimed
outcome holds; under a constant-zero oracle the same code leaves bucket 1
empty. -/
theorem C2_hash_oracle_dependence :
    (∀ h : String → Nat,
      ((hashFinal h [.insert "15", .insert "22", .insert "8", .insert "29"]).buckets.getD 1 []
          = ["15", "22", "8", "29"] ∧
        (hashFinal h [.insert "15", .insert "22", .insert "8", .insert "29"]).collisions = 3)
      ↔ (∀ k ∈ ["15", "22", "8", "29"], h k % 7 = 1)) ∧
    ((hashFinal numericValue
        [.insert "15", .insert "22", .insert "8", .insert "29"]).buckets.getD 1 []
        = ["15", "22", "8", "29"] ∧
      (hashFinal numericValue
        [.insert "15", .insert "22", .insert "8", .insert "29"]).collisions = 3) ∧
    ((hashFinal (fun _ => 0)
        [.insert "15", .insert "22", .insert "8", .insert "29"]).buckets.getD 1 [] = [] ∧
      (hashFinal (fun _ => 0)
        [.insert "15", .insert "22", .insert "8", .insert "29"]).buckets.getD 0 []
        = ["15", "22", "8", "29"]) := by
  refine ⟨?_, by decide, by decide⟩
  intro h
  constructor
  · rintro ⟨hb, _⟩
    intro k hk
    have hmem : k ∈ (hashFinal h
        [.insert "15", .insert "22", .insert "8", .insert "29"]).buckets.getD 1 [] := by
      rw [hb]; exact hk
    have := mem_bucket_hashIndex h _ 1 k hmem
    simpa [hashIndex, tableSize] using this
  · intro hall
    have e1 : hashIndex h "15" = 1 := by
      simpa [hashIndex, tableSize] using hall "15" (by simp)
    have e2 : hashIndex h "22" = 1 := by
      simpa [hashIndex, tableSize] using hall "22" (by simp)
    have e3 : hashIndex h "8" = 1 := by
      simpa [hashIndex, tableSize] using hall "8" (by simp)
    have e4 : hashIndex h "29" = 1 := by
      simpa [hashIndex, tableSize] using hall "29" (by simp)
    simp only [hashFinal, List.foldl, hashExecF, e1, e2, e3, e4]
    decide

/-! ### Claim theorems: C3, C4, C5, C6, C10 -/

/-- Claim C3 counterexample: `ListDeleteHead` on the empty list leaves the
state unchanged but produces the empty `step_info` — no diagnostic at all is
emitted for the ignored operation (the `else` branch redraws the frame with
the default `step_info=""`), contradicting the claim that the invalid
operation "is reported via a non-fatal diagnostic". -/
theorem C3_counterexample :
    listExec [] ListOp.delete = ([], "") ∧
    (listExec ["10"] ListOp.delete).2 ≠ "" := by
  constructor
  · rfl
  · decide

/-- Claim C3 (amended): every embedded transition is a total function, and
the invalid operations — `Pop` on an empty stack, `Dequeue` on an empty
queue, `ListDeleteHead` on an empty list — leave the structure unchanged and
raise nothing; however no diagnostic is recorded for them (the linked-list
animator yields the empty `step_info`). -/
theorem C3_invalid_ops_noop :
    (∀ s : List String, s = [] → stackStep s .pop = s) ∧
    (∀ q : List String, q = [] → queueStep q .dequeue = q) ∧
    (∀ l : List String, l = [] → listExec l .delete = (l, "")) := by
  refine ⟨?_, ?_, ?_⟩
  · intro s h; simp [stackStep, h]
  · intro q h; simp [queueStep, h]
  · intro l h; subst h; rfl

/-- Witness for C3: the three invalid operations at the concrete empty
states. -/
theorem C3_invalid_ops_noop_witness :
    stackStep [] .pop = [] ∧ queueStep [] .dequeue = [] ∧
    listExec [] .delete = ([], "") :=
  ⟨C3_invalid_ops_noop.1 [] rfl, C3_invalid_ops_noop.2.1 [] rfl,
    C3_invalid_ops_noop.2.2 [] rfl⟩

/-- Claim C5 counterexample: `ArrayInsert(99, 999)` on the 3-element array is
a no-op — the guard `index <= len(array)` rejects the out-of-range index
instead of clamping it to 3 (which would have appended). -/
theorem C5_counterexample :
    arrayStep ["10", "20", "30"] (ArrayOp.insert "99" (some 999)) = ["10", "20", "30"] ∧
    arrayStep ["10", "20", "30"] (ArrayOp.insert "99" (some 999)) ≠ ["10", "20", "30", "99"] := by
  constructor
  · rfl
  · decide

/-- Claim C5 (amended): `ArrayInsert(v,i)` inserts at `i` only when
`i ≤ len` and the array is below capacity; an index beyond `len` makes the
operation a no-op (it is not clamped), as does being at capacity;
`ArrayAppend` behaves exactly as `ArrayInsert` at index `len`;
`ArrayDelete(i)` with `i` out of range is a no-op; the array length never
exceeds `N = 10` on any run from the empty array. -/
theorem C5_array_semantics :
    (∀ (a : List String) (v : String) (i : Nat),
        a.length < i → arrayStep a (.insert v (some i)) = a) ∧
    (∀ (a : List String) (v : String) (i : Nat),
        i ≤ a.length → a.length < maxSize →
          arrayStep a (.insert v (some i)) = pyInsert a i v) ∧
    (∀ (a : List String) (v : String) (i : Nat),
        maxSize ≤ a.length → arrayStep a (.insert v (some i)) = a) ∧
    (∀ (a : List String) (v : String),
        arrayStep a (.append v) = arrayStep a (.insert v (some a.length))) ∧
    (∀ (a : List String) (i : Nat),
        a.length ≤ i → arrayStep a (.delete (some i)) = a) ∧
    (∀ ops : List ArrayOp, (arrayRun ops).length ≤ maxSize) := by
  refine ⟨?_, ?_, ?_, ?_, ?_, ?_⟩
  · intro a v i h
    simp only [arrayStep, Option.getD_some]
    rw [if_neg]; omega
  · intro a v i h₁ h₂
    simp only [arrayStep, Option.getD_some]
    rw [if_pos ⟨h₁, h₂⟩]
  · intro a v i h
    simp only [arrayStep, Option.getD_some]
    rw [if_neg]; omega
  · intro a v
    simp only [arrayStep, Option.getD_some]
    by_cases h : a.length < maxSize
    · rw [if_pos h, if_pos ⟨le_refl _, h⟩, pyInsert_at_length]
    · rw [if_neg h, if_neg (by omega)]
  · intro a i h
    simp only [arrayStep]
    rw [if_neg]; omega
  · intro ops
    have : ∀ (start : List String), start.length ≤ maxSize →
        (ops.foldl arrayStep start).length ≤ maxSize := by
      induction ops with
      | nil => intro start h; simpa using h
      | cons op rest ih =>
          intro start h
          exact ih _ (arrayStep_length start op h)
    exact this [] (by simp [maxSize])

/-- Witness for C5 at concrete inputs: the rejected out-of-range insert, an
in-range insert, append-as-insert-at-len, an out-of-range delete, and the
length bound of a concrete run. -/
theorem C5_array_semantics_witness :
    arrayStep ["10", "20", "30"] (.insert "99" (some 999)) = ["10", "20", "30"] ∧
    arrayStep ["10", "20", "30"] (.insert "15" (some 1)) = ["10", "15", "20", "30"] ∧
    arrayStep ["10"] (.append "20") = arrayStep ["10"] (.insert "20" (some 1)) ∧
    arrayStep ["10"] (.delete (some 5)) = ["10"] ∧
    (arrayRun [.append "1", .append "2"]).length ≤ maxSize := by
  refine ⟨?_, ?_, ?_, ?_, ?_⟩
  · exact C5_array_semantics.1 ["10", "20", "30"] "99" 999 (by decide)
  · exact (C5_array_semantics.2.1 ["10", "20", "30"] "15" 1 (by decide) (by decide)).trans
      (by decide)
  · exact C5_array_semantics.2.2.2.1 ["10"] "20"
  · exact C5_array_semantics.2.2.2.2.1 ["10"] 5 (by decide)
  · exact C5_array_semantics.2.2.2.2.2 [.append "1", .append "2"]

/-- Claim C6 counterexample: adding the edge (A,B) twice leaves exactly one
occurrence of B in A's adjacency list — the `if to_node not in
adjacency[from_node]` guard deduplicates, contrary to the claim of two
occurrences. -/
theorem C6_counterexample :
    dictGet (graphStep (graphStep initGraph (.addEdge "A" "B" none))
        (.addEdge "A" "B" none)).adjacency "A" [] = ["B"] ∧
    (["B"] : List String) ≠ ["B", "B"] := by
  constructor
  · rfl
  · decide

/-- Claim C6 (amended): `GraphAddEdge(from,to,w)` creates any missing
endpoint vertices and records `to` in `from`'s adjacency list, but duplicate
edges are deduplicated: repeating the same edge changes neither the vertex
list nor any adjacency list. -/
theorem C6_addEdge_dedup :
    ∀ (g : GraphState) (fn tn : String) (w : Option Nat),
      fn ∈ (graphStep g (.addEdge fn tn w)).nodes ∧
      tn ∈ (graphStep g (.addEdge fn tn w)).nodes ∧
      tn ∈ dictGet (graphStep g (.addEdge fn tn w)).adjacency fn [] ∧
      (graphStep (graphStep g (.addEdge fn tn w)) (.addEdge fn tn w)).nodes =
        (graphStep g (.addEdge fn tn w)).nodes ∧
      (graphStep (graphStep g (.addEdge fn tn w)) (.addEdge fn tn w)).adjacency =
        (graphStep g (.addEdge fn tn w)).adjacency := by
  intro g fn tn w
  obtain ⟨h₁, h₂, h₃, h₄, h₅⟩ := graph_addEdge_spec g fn tn w
  obtain ⟨h₆, h₇⟩ := graph_addEdge_idem _ fn tn w h₁ h₂ h₃ h₄ h₅
  exact ⟨h₁, h₂, h₅, h₆, h₇⟩

/-- Claim C10: inserting a key already present in its bucket bumps the
collision counter (the bucket is necessarily non-empty, and the counter is
incremented before the duplicate check) yet leaves every bucket unchanged
(the duplicate is not appended). -/
theorem C10_dup_insert :
    ∀ (h : String → Nat) (s : HashState) (k : String),
      k ∈ s.buckets.getD (hashIndex h k) [] →
      (hashExecF h s (.insert k)).1.buckets = s.buckets ∧
      (hashExecF h s (.insert k)).1.collisions = s.collisions + 1 := by
  intro h s k hk
  have hne : s.buckets.getD (hashIndex h k) [] ≠ [] := List.ne_nil_of_mem hk
  simp only [hashExecF]
  exact ⟨by rw [if_pos hk], by rw [if_pos hne]⟩

/-! ### BST ordering (claim C4) -/

/-- A predicate holding at every node value of a tree. -/
inductive ForallTree (p : Int → Prop) : Tree → Prop
  | nil : ForallTree p .nil
  | node : ∀ {l r : Tree} {v : Int},
      ForallTree p l → p v → ForallTree p r → ForallTree p (.node l v r)

/-- The search-tree invariant `insert_node` maintains: strictly smaller
values to the left, greater-or-equal values (ties included) to the right. -/
inductive BSTInv : Tree → Prop
  | nil : BSTInv .nil
  | node : ∀ {l r : Tree} {v : Int},
      ForallTree (fun a => a < v) l → ForallTree (fun a => v ≤ a) r →
      BSTInv l → BSTInv r → BSTInv (.node l v r)

theorem forallTree_insert {p : Int → Prop} {t : Tree} {v : Int}
    (ht : ForallTree p t) (hv : p v) : ForallTree p (insert_node t v) := by
  induction ht with
  | nil => exact .node .nil hv .nil
  | node hl hx hr ihl ihr =>
      simp only [insert_node]
      split
      · exact .node ihl hx hr
      · exact .node hl hx ihr

theorem bstInv_insert {t : Tree} (h : BSTInv t) (v : Int) :
    BSTInv (insert_node t v) := by
  induction h with
  | nil => exact .node .nil .nil .nil .nil
  | @node l r x hl hr bl br ihl ihr =>
      simp only [insert_node]
      split
      · next hlt => exact .node (forallTree_insert hl hlt) hr ihl br
      · next hge => exact .node hl (forallTree_insert hr (by omega)) bl ihr

theorem forallTree_mem_inorder {p : Int → Prop} {t : Tree}
    (h : ForallTree p t) : ∀ a ∈ inorder t, p a := by
  induction h with
  | nil => intro a ha; simp [inorder] at ha
  | node hl hx hr ihl ihr =>
      intro a ha
      simp only [inorder, List.mem_append, List.mem_cons] at ha
      rcases ha with ha | ha | ha
      · exact ihl a ha
      · exact ha ▸ hx
      · exact ihr a ha

theorem sorted_append_of (l₁ l₂ : List Int)
    (h₁ : List.Sorted (· ≤ ·) l₁) (h₂ : List.Sorted (· ≤ ·) l₂)
    (h : ∀ a ∈ l₁, ∀ b ∈ l₂, a ≤ b) :
    List.Sorted (· ≤ ·) (l₁ ++ l₂) := by
  induction l₁ with
  | nil => simpa using h₂
  | cons x xs ih =>
      rw [List.cons_append, List.sorted_cons]
      rw [List.sorted_cons] at h₁
      refine ⟨?_, ih h₁.2 (fun a ha b hb => h a (List.mem_cons_of_mem _ ha) b hb)⟩
      intro b hb
      rw [List.mem_append] at hb
      rcases hb with hb | hb
      · exact h₁.1 b hb
      · exact h x (List.mem_cons_self _ _) b hb

theorem sorted_inorder_of_bstInv {t : Tree} (h : BSTInv t) :
    List.Sorted (· ≤ ·) (inorder t) := by
  induction h with
  | nil => simp [inorder]
  | @node l r x hl hr bl br ihl ihr =>
      simp only [inorder]
      refine sorted_append_of _ _ ihl ?_ ?_
      · rw [List.sorted_cons]
        exact ⟨fun b hb => forallTree_mem_inorder hr b hb, ihr⟩
      · intro a ha b hb
        have hax : a < x := forallTree_mem_inorder hl a ha
        simp only [List.mem_cons] at hb
        rcases hb with hb | hb
        · omega
        · have := forallTree_mem_inorder hr b hb
          omega

theorem bstInv_treeRun_from {t : Tree} (h : BSTInv t) (vs : List Int) :
    BSTInv (vs.foldl insert_node t) := by
  induction vs generalizing t with
  | nil => exact h
  | cons v rest ih => exact ih (bstInv_insert h v)

/-- Claim C4: `insert_node` goes left exactly on strict less and right
otherwise (ties right), so the in-order traversal of any insertion sequence's
tree is non-decreasing; the spec's example sequence gives `[20,30,40,50,70]`. -/
theorem C4_bst_inorder_sorted :
    (∀ (l r : Tree) (x v : Int),
        insert_node (.node l x r) v =
          if v < x then .node (insert_node l v) x r else .node l x (insert_node r v)) ∧
    (∀ vs : List Int, List.Sorted (· ≤ ·) (inorder (treeRun vs))) ∧
    inorder (treeRun [50, 30, 70, 20, 40]) = [20, 30, 40, 50, 70] := by
  refine ⟨fun l r x v => rfl, ?_, by decide⟩
  intro vs
  exact sorted_inorder_of_bstInv (bstInv_treeRun_from .nil vs)

/-- Witness for C10: the duplicate insert of "a" into a table whose bucket 0
already holds "a", under the constant-zero string-hash oracle. -/
theorem C10_dup_insert_witness :
    (hashExecF (fun _ => 0) ⟨[["a"], [], [], [], [], [], []], 5⟩
        (.insert "a")).1.buckets = [["a"], [], [], [], [], [], []] ∧
    (hashExecF (fun _ => 0) ⟨[["a"], [], [], [], [], [], []], 5⟩
        (.insert "a")).1.collisions = 5 + 1 :=
  C10_dup_insert (fun _ => 0) ⟨[["a"], [], [], [], [], [], []], 5⟩ "a" (by decide)

/-! ### Claim theorems: C7, C8, C9 -/

theorem mem_flatMapL {α β : Type} {f : α → List β} {b : β} {l : List α} :
    b ∈ flatMapL f l ↔ ∃ a ∈ l, b ∈ f a := by
  induction l with
  | nil => simp [flatMapL]
  | cons x xs ih =>
      simp only [flatMapL, List.mem_append, ih, List.mem_cons]
      constructor
      · rintro (h | ⟨a, ha, hb⟩)
        · exact ⟨x, Or.inl rfl, h⟩
        · exact ⟨a, Or.inr ha, hb⟩
      · rintro ⟨a, ha | ha, hb⟩
        · exact Or.inl (ha ▸ hb)
        · exact Or.inr ⟨a, ha, hb⟩

/-- Claim C7 counterexample: in a stack text containing `push(10)`, then
`pop()`, then `push(20)`, the extractor collects all push matches before any
pop match, so the output is `[Push(10), Push(20), Pop]`, not the source-order
`[Push(10), Pop, Push(20)]`. -/
theorem C7_counterexample :
    analyzeType "stack: push(10) then pop() then push(20)" = "data_structures" ∧
    extractOps "stack: push(10) then pop() then push(20)" =
      [ExOp.stackPush "10", ExOp.stackPush "20", ExOp.stackPop] ∧
    extractOps "stack: push(10) then pop() then push(20)" ≠
      [ExOp.stackPush "10", ExOp.stackPop, ExOp.stackPush "20"] :=
  ⟨by decide, by decide, by decide⟩

/-- Claim C7 (amended): the extractor does not preserve source order across
operation kinds — for every stack text it emits all push operations (by
pattern priority, then text order within a pattern) followed by all pop
operations; on the example text this yields `[Push(10), Push(20), Pop]`. -/
theorem C7_extraction_grouped :
    (∀ text : String, ∃ pushes pops : List ExOp,
        stackBranch text = pushes ++ pops ∧
        (∀ op ∈ pushes, ∃ v, op = ExOp.stackPush v) ∧
        (∀ op ∈ pops, op = ExOp.stackPop)) ∧
    extractOps "stack: push(10) then pop() then push(20)" =
      [ExOp.stackPush "10", ExOp.stackPush "20", ExOp.stackPop] := by
  constructor
  · intro text
    refine ⟨_, _, rfl, ?_, ?_⟩
    · intro op hop
      rw [mem_flatMapL] at hop
      obtain ⟨p, _, hop⟩ := hop
      rw [List.mem_filterMap] at hop
      obtain ⟨v, _, heq⟩ := hop
      by_cases hcv : cleanValue v = ""
      · rw [if_pos hcv] at heq
        exact absurd heq (by simp)
      · rw [if_neg hcv] at heq
        exact ⟨cleanValue v, (Option.some_inj.mp heq).symm⟩
    · intro op hop
      rw [mem_flatMapL] at hop
      obtain ⟨p, _, hop⟩ := hop
      rw [List.mem_map] at hop
      obtain ⟨_, _, heq⟩ := hop
      exact heq.symm
  · decide

/-- Claim C8 counterexample: the text "heap" is classified DataStructures
(keyword hit) but matches no structure branch, no numbered-list item and no
value guard, so the extractor returns the empty operation list. -/
theorem C8_counterexample :
    analyzeType "heap" = "data_structures" ∧ extractOps "heap" = [] :=
  ⟨by decide, by decide⟩

/-- Claim C8 (amended): when no operation is recognized the fallback is
deterministic but not always the canonical seed and not always non-empty:
with at least two extractable values the sequence is built from those values
(e.g. "stack A B C"), with fewer values the canonical seed fires only when a
stack/queue/data-structure keyword guard holds ("stack" gives exactly
`[Push(10), Push(20), Pop, Push(30)]`), and otherwise (e.g. "heap",
see the counterexample) the result is empty. -/
theorem C8_fallback_seeds :
    extractOps "stack" = stackSeed ∧
    stackSeed = [ExOp.stackPush "10", ExOp.stackPush "20", ExOp.stackPop,
      ExOp.stackPush "30"] ∧
    extractOps "queue" = queueSeed ∧
    extractOps "stack A B C" =
      [ExOp.stackPush "A", ExOp.stackPush "B", ExOp.stackPush "C",
        ExOp.stackPop, ExOp.stackPop] ∧
    analyzeType "stack" = "data_structures" :=
  ⟨by decide, by decide, by decide, by decide, by decide⟩

/-- `pyMaxEntry` returns the first entry of maximal value: the list splits
around it, everything before it is strictly smaller, and nothing exceeds
it. -/
theorem pyMaxEntry_first (p : String × Nat) (l : List (String × Nat)) :
    ∃ pre post, p :: l = pre ++ pyMaxEntry p l :: post ∧
      (∀ q ∈ pre, q.2 < (pyMaxEntry p l).2) ∧
      (∀ q ∈ p :: l, q.2 ≤ (pyMaxEntry p l).2) := by
  induction l generalizing p with
  | nil =>
      refine ⟨[], [], by simp [pyMaxEntry], by simp, ?_⟩
      intro q hq
      simp only [List.mem_singleton] at hq
      simp [hq, pyMaxEntry]
  | cons q rest ih =>
      by_cases hgt : q.2 > p.2
      · obtain ⟨pre, post, hsplit, hpre, hle⟩ := ih q
        rw [pyMaxEntry, if_pos hgt]
        refine ⟨p :: pre, post, by rw [List.cons_append, ← hsplit], ?_, ?_⟩
        · intro x hx
          rcases List.mem_cons.mp hx with hx | hx
          · have hq₂ : q.2 ≤ (pyMaxEntry q rest).2 := hle q (List.mem_cons_self _ _)
            subst hx; omega
          · exact hpre x hx
        · intro x hx
          rcases List.mem_cons.mp hx with hx | hx
          · have hq₂ : q.2 ≤ (pyMaxEntry q rest).2 := hle q (List.mem_cons_self _ _)
            subst hx; omega
          · exact hle x hx
      · obtain ⟨pre, post, hsplit, hpre, hle⟩ := ih p
        rw [pyMaxEntry, if_neg hgt]
        cases pre with
        | nil =>
            simp only [List.nil_append] at hsplit
            have he : pyMaxEntry p rest = p := (List.cons_eq_cons.mp hsplit.symm).1
            refine ⟨[], q :: rest, by simp [he], by simp, ?_⟩
            intro x hx
            rcases List.mem_cons.mp hx with hx | hx
            · subst hx; rw [he]
            · rcases List.mem_cons.mp hx with hx | hx
              · subst hx; rw [he]; omega
              · exact hle x (List.mem_cons_of_mem _ hx)
        | cons y pre₀ =>
            rw [List.cons_append] at hsplit
            have hy : y = p := (List.cons_eq_cons.mp hsplit).1.symm
            have hrest : rest = pre₀ ++ pyMaxEntry p rest :: post :=
              (List.cons_eq_cons.mp hsplit).2
            refine ⟨p :: q :: pre₀, post, by rw [List.cons_append, List.cons_append, ← hrest], ?_, ?_⟩
            · intro x hx
              rcases List.mem_cons.mp hx with hx | hx
              · subst hx
                have := hpre y (List.mem_cons_self _ _)
                rw [hy] at this
                exact this
              · rcases List.mem_cons.mp hx with hx | hx
                · have hp₂ := hpre y (List.mem_cons_self _ _)
                  rw [hy] at hp₂
                  subst hx; omega
                · exact hpre x (List.mem_cons_of_mem _ hx)
            · intro x hx
              rcases List.mem_cons.mp hx with hx | hx
              · subst hx; exact hle x (List.mem_cons_self _ _)
              · rcases List.mem_cons.mp hx with hx | hx
                · have hp₂ := hle p (List.mem_cons_self _ _)
                  subst hx; omega
                · exact hle x (List.mem_cons_of_mem _ hx)

/-- Claim C9: the classifier is total, its scores are non-negative, the
returned category is the score arg-max with ties broken by the fixed table
order (the entry splits the score list with all strictly-smaller entries
before it), and an all-zero score table yields `general`. -/
theorem C9_classifier_argmax :
    ∀ text : String,
      (∀ p ∈ contentScores text, 0 ≤ p.2) ∧
      ((∀ p ∈ contentScores text, p.2 = 0) → analyzeType text = "general") ∧
      ((∃ p ∈ contentScores text, p.2 ≠ 0) →
        ∃ pre post,
          contentScores text = pre ++ primaryEntry text :: post ∧
          analyzeType text = (primaryEntry text).1 ∧
          (∀ q ∈ pre, q.2 < (primaryEntry text).2) ∧
          (∀ q ∈ contentScores text, q.2 ≤ (primaryEntry text).2)) := by
  intro text
  refine ⟨fun p _ => Nat.zero_le _, ?_, ?_⟩
  · intro hz
    have hcond : (contentScores text).any (fun p => p.2 ≠ 0) = false := by
      rw [List.any_eq_false]
      intro p hp
      simp [hz p hp]
    rw [analyzeType, hcond]
    simp
  · rintro ⟨p₀, hp₀, hne⟩
    have hcond : (contentScores text).any (fun p => p.2 ≠ 0) = true := by
      rw [List.any_eq_true]
      exact ⟨p₀, hp₀, by simpa using hne⟩
    have htype : analyzeType text = (primaryEntry text).1 := by
      rw [analyzeType, hcond]
      simp
    rcases hsc : contentScores text with _ | ⟨p, rest⟩
    · rw [hsc] at hp₀
      exact absurd hp₀ (List.not_mem_nil p₀)
    · have hpe : primaryEntry text = pyMaxEntry p rest := by
        rw [primaryEntry, hsc]
      obtain ⟨pre, post, hsplit, hpre, hle⟩ := pyMaxEntry_first p rest
      refine ⟨pre, post, ?_, htype, ?_, ?_⟩
      · rw [hpe]
        exact hsplit
      · intro q hq
        rw [hpe]
        exact hpre q hq
      · intro q hq
        rw [hpe]
        exact hle q hq

/-- Witness for C9: the all-zero text "hello" classifies as `general`; the
text "stack" classifies as `data_structures` through the arg-max clause. -/
theorem C9_classifier_argmax_witness :
    analyzeType "hello" = "general" ∧ analyzeType "stack" = "data_structures" := by
  constructor
  · exact (C9_classifier_argmax "hello").2.1 (by decide)
  · obtain ⟨pre, post, hsplit, heq, hpre, hle⟩ :=
      (C9_classifier_argmax "stack").2.2 (by decide)
    rw [heq]
    decide

end Edu
